import Mathlib

/-!
# Verification of the Schrödinger–Newton BEC-halo solver

Shallow embedding of the numerical notebook
`numerical-solution-SN-BEC-halo-thomas-algorithm.ipynb`.

The Python source works over machine floats; the embedding idealises
float arithmetic as exact arithmetic over `ℝ` / `ℂ`.  Python's runtime
faults (`IndexError` on a list subscript out of range,
`ZeroDivisionError` on complex division by zero) are modelled by an
explicit `Except` error value at exactly the operations that can raise.
In-range list reads are written with `List.getD`.
-/

/-- Runtime faults of the notebook: an out-of-range list subscript
(Python `IndexError`, carrying the offending index) and a division by a
zero modified diagonal in the Thomas sweeps (Python
`ZeroDivisionError`). -/
inductive SNErr : Type where
  | oob (t : ℕ) : SNErr
  | instability : SNErr
deriving DecidableEq

noncomputable section

/-! ## Thomas algorithm, functional form

Exact-arithmetic value-level recurrences for the helper sequences `B`,
`D` of the forward sweep and the (reversed) solution sequence `X` of the
backward sweep, mirroring

    B.append(B_J[i]-A_J[i]*C_J[i-1]/B[i-1])
    D.append(psi_n_J[t][i]-A_J[i]*D[i-1]/B[i-1])
    X.append((D[N-1-i]-C_J[N-1-i]*X[i-1])/B[N-1-i])

(`/` is total field division here; the operational form below carries
the zero-divisor fault). -/

/-- Modified diagonal `B_i` of the Thomas forward sweep. -/
def thomasB (a b c : ℕ → ℂ) : ℕ → ℂ
  | 0 => b 0
  | i + 1 => b (i + 1) - a (i + 1) * c i / thomasB a b c i

/-- Modified right-hand side `D_i` of the Thomas forward sweep. -/
def thomasD (a b c d : ℕ → ℂ) : ℕ → ℂ
  | 0 => d 0
  | i + 1 => d (i + 1) - a (i + 1) * thomasD a b c d i / thomasB a b c i

/-- Backward-sweep values in the order the source appends them
(`thomasXr _ _ _ _ N i` is the entry for grid index `N-1-i`). -/
def thomasXr (a b c d : ℕ → ℂ) (N : ℕ) : ℕ → ℂ
  | 0 => thomasD a b c d (N - 1) / thomasB a b c (N - 1)
  | i + 1 =>
      (thomasD a b c d (N - 1 - (i + 1)) -
        c (N - 1 - (i + 1)) * thomasXr a b c d N i) / thomasB a b c (N - 1 - (i + 1))

/-- Solution sequence of the Thomas algorithm, indexed by grid index
(the source reverses the backward-sweep list). -/
def thomasX (a b c d : ℕ → ℂ) (N : ℕ) (J : ℕ) : ℂ :=
  thomasXr a b c d N (N - 1 - J)

/-! ## Thomas algorithm, operational form

The loops as executed, with the division-by-zero fault made explicit:
the forward loop appends to `B` and `D`, dividing by the previous `B`
entry; the backward loop appends to `X`, dividing by `B[N-1-i]`; the
final solution is `X` reversed. -/

/-- Forward sweep after iterations `i = 0 .. k` of `for i in range(0, N)`:
the lists `B`, `D`, or the fault raised by a division by zero. -/
def thomasFwd (a b c d : ℕ → ℂ) : ℕ → Except SNErr (List ℂ × List ℂ)
  | 0 => .ok ([b 0], [d 0])
  | k + 1 =>
    match thomasFwd a b c d k with
    | .error e => .error e
    | .ok (Bs, Ds) =>
      if Bs.getD k 0 = 0 then .error .instability
      else .ok (Bs ++ [b (k + 1) - a (k + 1) * c k / Bs.getD k 0],
                Ds ++ [d (k + 1) - a (k + 1) * Ds.getD k 0 / Bs.getD k 0])

/-- Backward sweep after iterations `i = 0 .. k`: the (reversed) list
`X`, or the fault raised by a division by zero. -/
def thomasBwd (c : ℕ → ℂ) (Bs Ds : List ℂ) (N : ℕ) : ℕ → Except SNErr (List ℂ)
  | 0 =>
    if Bs.getD (N - 1) 0 = 0 then .error .instability
    else .ok [Ds.getD (N - 1) 0 / Bs.getD (N - 1) 0]
  | k + 1 =>
    match thomasBwd c Bs Ds N k with
    | .error e => .error e
    | .ok Xs =>
      if Bs.getD (N - 1 - (k + 1)) 0 = 0 then .error .instability
      else .ok (Xs ++ [(Ds.getD (N - 1 - (k + 1)) 0 -
        c (N - 1 - (k + 1)) * Xs.getD k 0) / Bs.getD (N - 1 - (k + 1)) 0])

/-- The whole Thomas solve (step 4 of the notebook): forward sweep,
backward sweep, reverse.  For `N = 0` both loops are empty. -/
def thomasRun (a b c d : ℕ → ℂ) (N : ℕ) : Except SNErr (List ℂ) :=
  match N with
  | 0 => .ok []
  | N' + 1 =>
    match thomasFwd a b c d N' with
    | .error e => .error e
    | .ok (Bs, Ds) =>
      match thomasBwd c Bs Ds (N' + 1) N' with
      | .error e => .error e
      | .ok Xs => .ok Xs.reverse

/-! ## List helpers -/

/-- `getD` of a mapped range at an in-range index. -/
theorem getD_map_range {α : Type} (f : ℕ → α) (d : α) {k n : ℕ} (h : k < n) :
    ((List.range n).map f).getD k d = f k := by
  rw [List.getD_eq_getElem?_getD, List.getElem?_map, List.getElem?_range h]
  rfl

/-- Reversing a mapped range flips the index. -/
theorem reverse_map_range {α : Type} (f : ℕ → α) (N : ℕ) :
    ((List.range N).map f).reverse = (List.range N).map (fun j => f (N - 1 - j)) := by
  apply List.ext_getElem
  · simp
  · intro i h1 h2
    rw [List.getElem_reverse]
    simp

/-! ## Bridging the operational and functional Thomas forms -/

/-- When every modified diagonal so far is nonzero, the forward-sweep
loop produces exactly the `thomasB` / `thomasD` sequences. -/
theorem thomasFwd_ok (a b c d : ℕ → ℂ) (k : ℕ)
    (hB : ∀ j, j < k → thomasB a b c j ≠ 0) :
    thomasFwd a b c d k =
      .ok ((List.range (k + 1)).map (thomasB a b c),
           (List.range (k + 1)).map (thomasD a b c d)) := by
  induction k with
  | zero =>
    simp [thomasFwd, thomasB, thomasD, List.range_succ]
  | succ k ih =>
    rw [thomasFwd, ih (fun j hj => hB j (Nat.lt_succ_of_lt hj))]
    dsimp only
    have hBk : ((List.range (k + 1)).map (thomasB a b c)).getD k 0 = thomasB a b c k :=
      getD_map_range _ _ (Nat.lt_succ_self k)
    have hDk : ((List.range (k + 1)).map (thomasD a b c d)).getD k 0 = thomasD a b c d k :=
      getD_map_range _ _ (Nat.lt_succ_self k)
    rw [hBk, hDk]
    rw [if_neg (hB k (Nat.lt_succ_self k))]
    rw [List.range_succ (n := k + 1)]
    simp [thomasB, thomasD]

/-- A forward-sweep fault persists through later iterations. -/
theorem thomasFwd_error_mono (a b c d : ℕ → ℂ) (k : ℕ) (e : SNErr)
    (h : thomasFwd a b c d k = .error e) :
    ∀ m, k ≤ m → thomasFwd a b c d m = .error e := by
  intro m hm
  induction m with
  | zero => exact (Nat.le_zero.mp hm) ▸ h
  | succ m ih =>
    rcases Nat.lt_or_ge k (m + 1) with hlt | hge
    · have hk : k ≤ m := Nat.lt_succ_iff.mp hlt
      rw [thomasFwd, ih hk]
    · exact (Nat.le_antisymm hm hge) ▸ h

/-- When every modified diagonal is nonzero, the backward-sweep loop
applied to the forward-sweep lists produces the `thomasXr` sequence. -/
theorem thomasBwd_ok (a b c d : ℕ → ℂ) (N : ℕ)
    (hB : ∀ j, j < N → thomasB a b c j ≠ 0) (k : ℕ) (hk : k < N) :
    thomasBwd c ((List.range N).map (thomasB a b c))
        ((List.range N).map (thomasD a b c d)) N k
      = .ok ((List.range (k + 1)).map (thomasXr a b c d N)) := by
  induction k with
  | zero =>
    have hN1 : N - 1 < N := Nat.sub_lt (lt_of_le_of_lt (Nat.zero_le _) hk) Nat.one_pos
    rw [thomasBwd]
    rw [getD_map_range _ _ hN1, getD_map_range _ _ hN1]
    rw [if_neg (hB _ hN1)]
    simp [thomasXr, List.range_succ]
  | succ k ih =>
    have hk' : k < N := Nat.lt_of_succ_lt hk
    have hidx : N - 1 - (k + 1) < N :=
      Nat.lt_of_le_of_lt (Nat.sub_le _ _)
        (Nat.sub_lt (lt_of_le_of_lt (Nat.zero_le _) hk) Nat.one_pos)
    rw [thomasBwd, ih hk']
    dsimp only
    rw [getD_map_range _ _ hidx, getD_map_range _ _ hidx]
    rw [if_neg (hB _ hidx)]
    have hXk : ((List.range (k + 1)).map (thomasXr a b c d N)).getD k 0
        = thomasXr a b c d N k := getD_map_range _ _ (Nat.lt_succ_self k)
    rw [hXk, List.range_succ (n := k + 1)]
    simp [thomasXr]

/-- A backward-sweep fault persists through later iterations. -/
theorem thomasBwd_error_mono (c : ℕ → ℂ) (Bs Ds : List ℂ) (N : ℕ) (k : ℕ) (e : SNErr)
    (h : thomasBwd c Bs Ds N k = .error e) :
    ∀ m, k ≤ m → thomasBwd c Bs Ds N m = .error e := by
  intro m hm
  induction m with
  | zero => exact (Nat.le_zero.mp hm) ▸ h
  | succ m ih =>
    rcases Nat.lt_or_ge k (m + 1) with hlt | hge
    · have hk : k ≤ m := Nat.lt_succ_iff.mp hlt
      rw [thomasBwd, ih hk]
    · exact (Nat.le_antisymm hm hge) ▸ h

/-- When every modified diagonal is nonzero, the whole Thomas solve
succeeds and returns exactly the `thomasX` solution sequence. -/
theorem thomasRun_ok (a b c d : ℕ → ℂ) (N : ℕ)
    (hB : ∀ j, j < N → thomasB a b c j ≠ 0) :
    thomasRun a b c d N = .ok ((List.range N).map (thomasX a b c d N)) := by
  match N with
  | 0 => simp [thomasRun]
  | N' + 1 =>
    rw [thomasRun]
    rw [thomasFwd_ok a b c d N' (fun j hj => hB j (Nat.lt_succ_of_lt hj))]
    dsimp only
    rw [thomasBwd_ok a b c d (N' + 1) hB N' (Nat.lt_succ_self N')]
    dsimp only
    rw [reverse_map_range]
    rfl

/-- If some modified diagonal is zero (taking the first such index),
the Thomas solve aborts with the numerical-instability fault. -/
theorem thomasRun_error (a b c d : ℕ → ℂ) (N : ℕ) (j : ℕ) (hj : j < N)
    (hzero : thomasB a b c j = 0)
    (hmin : ∀ i, i < j → thomasB a b c i ≠ 0) :
    thomasRun a b c d N = .error .instability := by
  match N with
  | N' + 1 =>
    rcases Nat.lt_or_ge j N' with hlt | hge
    · -- the forward sweep divides by the zero diagonal at iteration j+1
      have hfwd : thomasFwd a b c d (j + 1) = .error .instability := by
        rw [thomasFwd, thomasFwd_ok a b c d j hmin]
        dsimp only
        rw [getD_map_range _ _ (Nat.lt_succ_self j)]
        rw [if_pos hzero]
      have := thomasFwd_error_mono a b c d (j + 1) _ hfwd N' hlt
      rw [thomasRun, this]
    · -- j = N': the backward sweep divides by the zero last diagonal
      have hjN : j = N' := Nat.le_antisymm (Nat.lt_succ_iff.mp hj) hge
      subst hjN
      rw [thomasRun, thomasFwd_ok a b c d j hmin]
      dsimp only
      have hbwd : thomasBwd c ((List.range (j + 1)).map (thomasB a b c))
          ((List.range (j + 1)).map (thomasD a b c d)) (j + 1) 0 = .error .instability := by
        rw [thomasBwd]
        have hj1 : j + 1 - 1 = j := rfl
        rw [hj1, getD_map_range _ _ (Nat.lt_succ_self j), if_pos hzero]
      have := thomasBwd_error_mono _ _ _ _ 0 _ hbwd j (Nat.zero_le j)
      rw [this]

/-! ## Structural invariant of the built system

For the coefficients the notebook builds, the diagonal entries all have
real part `1/2` and each product `a_i · c_{i-1}` is a nonpositive real
number; under exactly those hypotheses every modified diagonal of the
forward sweep keeps real part at least `1/2`, hence is nonzero. -/

theorem thomasB_re_ge (a b c : ℕ → ℂ) (hb : ∀ i, (b i).re = 1 / 2)
    (hac : ∀ i, 1 ≤ i → ∃ w : ℝ, 0 ≤ w ∧ a i * c (i - 1) = -(w : ℂ)) :
    ∀ i, 1 / 2 ≤ (thomasB a b c i).re := by
  intro i
  induction i with
  | zero => rw [thomasB]; exact le_of_eq (hb 0).symm
  | succ i ih =>
    obtain ⟨w, hw, hacw⟩ := hac (i + 1) (Nat.le_add_left 1 i)
    rw [Nat.add_sub_cancel] at hacw
    have hre : (thomasB a b c (i + 1)).re
        = (b (i + 1)).re + w * (thomasB a b c i).re / Complex.normSq (thomasB a b c i) := by
      rw [thomasB, hacw, neg_div, sub_neg_eq_add]
      rw [Complex.add_re, Complex.div_re]
      simp [Complex.ofReal_re, Complex.ofReal_im]
    rw [hre, hb (i + 1)]
    have h0 : 0 ≤ w * (thomasB a b c i).re / Complex.normSq (thomasB a b c i) :=
      div_nonneg (mul_nonneg hw (le_trans (by norm_num) ih)) (Complex.normSq_nonneg _)
    linarith

theorem thomasB_ne_zero (a b c : ℕ → ℂ) (hb : ∀ i, (b i).re = 1 / 2)
    (hac : ∀ i, 1 ≤ i → ∃ w : ℝ, 0 ≤ w ∧ a i * c (i - 1) = -(w : ℂ)) :
    ∀ i, thomasB a b c i ≠ 0 := by
  intro i h0
  have := thomasB_re_ge a b c hb hac i
  rw [h0] at this
  norm_num at this

/-! ## Algebraic correctness of the Thomas solution -/

/-- Back-substitution identity at a non-final index. -/
theorem step_back (a b c d : ℕ → ℂ) (N i : ℕ) (hi : i < N - 1)
    (hB : thomasB a b c i ≠ 0) :
    thomasB a b c i * thomasX a b c d N i + c i * thomasX a b c d N (i + 1)
      = thomasD a b c d i := by
  have h1 : N - 1 - i = (N - 2 - i) + 1 := by omega
  have h3 : N - 1 - (i + 1) = N - 2 - i := by omega
  unfold thomasX
  rw [h1, h3, thomasXr]
  have h2 : N - 1 - ((N - 2 - i) + 1) = i := by omega
  rw [h2]
  field_simp

/-- Back-substitution identity at the final index. -/
theorem last_back (a b c d : ℕ → ℂ) (N : ℕ)
    (hB : thomasB a b c (N - 1) ≠ 0) :
    thomasB a b c (N - 1) * thomasX a b c d N (N - 1) = thomasD a b c d (N - 1) := by
  have h1 : N - 1 - (N - 1) = 0 := by omega
  unfold thomasX
  rw [h1, thomasXr]
  field_simp

/-- Forward-sweep recurrence for `B`, cleared of its division. -/
theorem thomasB_succ_mul (a b c : ℕ → ℂ) (j : ℕ) (hβ : thomasB a b c j ≠ 0) :
    thomasB a b c (j + 1) * thomasB a b c j
      = b (j + 1) * thomasB a b c j - a (j + 1) * c j := by
  rw [thomasB]
  field_simp

/-- Forward-sweep recurrence for `D`, cleared of its division. -/
theorem thomasD_succ_mul (a b c d : ℕ → ℂ) (j : ℕ) (hβ : thomasB a b c j ≠ 0) :
    thomasD a b c d (j + 1) * thomasB a b c j
      = d (j + 1) * thomasB a b c j - a (j + 1) * thomasD a b c d j := by
  rw [thomasD]
  field_simp

/-- The Thomas solution satisfies every row of the original tridiagonal
system (out-of-range neighbour terms are annihilated by `a 0 = 0` and
`c (N-1) = 0`). -/
theorem thomas_eqs (a b c d : ℕ → ℂ) (N : ℕ)
    (ha0 : a 0 = 0) (hc : c (N - 1) = 0)
    (hB : ∀ j, j < N → thomasB a b c j ≠ 0) :
    ∀ i, i < N →
      a i * thomasX a b c d N (i - 1) + b i * thomasX a b c d N i
        + c i * thomasX a b c d N (i + 1) = d i := by
  intro i hi
  by_cases hlast : i = N - 1
  · subst hlast
    rw [hc, zero_mul, add_zero]
    by_cases h0 : N = 1
    · subst h0
      have h := last_back a b c d 1 (hB 0 (by omega))
      simp only [Nat.sub_self] at *
      rw [ha0, zero_mul, zero_add]
      simpa [thomasB, thomasD] using h
    · have hN2 : 2 ≤ N := by omega
      have hj : N - 1 = (N - 2) + 1 := by omega
      have hβ : thomasB a b c (N - 2) ≠ 0 := hB _ (by omega)
      have h1 := step_back a b c d N (N - 2) (by omega) hβ
      have h2 := last_back a b c d N (hB (N - 1) (by omega))
      rw [hj] at h2 ⊢
      rw [Nat.add_sub_cancel]
      have hbm := thomasB_succ_mul a b c (N - 2) hβ
      have hdm := thomasD_succ_mul a b c d (N - 2) hβ
      have key : thomasB a b c (N - 2) *
          (a (N - 2 + 1) * thomasX a b c d N (N - 2)
            + b (N - 2 + 1) * thomasX a b c d N (N - 2 + 1))
          = thomasB a b c (N - 2) * d (N - 2 + 1) := by
        linear_combination a (N - 2 + 1) * h1 + thomasB a b c (N - 2) * h2
          - thomasX a b c d N (N - 2 + 1) * hbm + hdm
      exact mul_left_cancel₀ hβ key
  · have hi' : i < N - 1 := by omega
    by_cases h0 : i = 0
    · subst h0
      have h := step_back a b c d N 0 hi' (hB 0 (by omega))
      rw [ha0, zero_mul, zero_add]
      simpa [thomasB, thomasD] using h
    · obtain ⟨j, rfl⟩ : ∃ j, i = j + 1 := ⟨i - 1, by omega⟩
      have hβ : thomasB a b c j ≠ 0 := hB j (by omega)
      have h1 := step_back a b c d N j (by omega) hβ
      have h2 := step_back a b c d N (j + 1) hi' (hB (j + 1) (by omega))
      have hbm := thomasB_succ_mul a b c j hβ
      have hdm := thomasD_succ_mul a b c d j hβ
      rw [Nat.add_sub_cancel]
      have key : thomasB a b c j *
          (a (j + 1) * thomasX a b c d N j + b (j + 1) * thomasX a b c d N (j + 1)
            + c (j + 1) * thomasX a b c d N (j + 2))
          = thomasB a b c j * d (j + 1) := by
        linear_combination a (j + 1) * h1 + thomasB a b c j * h2
          - thomasX a b c d N (j + 1) * hbm + hdm
      exact mul_left_cancel₀ hβ key

/-- C5: the Thomas solve fails with the numerical-instability fault if
and only if some modified diagonal value `B_i` of the forward sweep is
zero; the zero test is performed (Python's complex division raises
`ZeroDivisionError`), never substituted or skipped, and the failure
aborts the solve. -/
theorem claim_thomas_instability_iff (a b c d : ℕ → ℂ) (N : ℕ) :
    thomasRun a b c d N = .error .instability ↔ ∃ j, j < N ∧ thomasB a b c j = 0 := by
  constructor
  · intro h
    by_contra hno
    push_neg at hno
    rw [thomasRun_ok a b c d N hno] at h
    exact absurd h (by simp)
  · rintro ⟨j, hj, hz⟩
    classical
    have hex : ∃ m, m < N ∧ thomasB a b c m = 0 := ⟨j, hj, hz⟩
    have h0 := Nat.find_spec hex
    refine thomasRun_error a b c d N (Nat.find hex) h0.1 h0.2 ?_
    intro i hi hzi
    exact Nat.find_min hex hi ⟨lt_trans hi h0.1, hzi⟩

/-! ## Physical parameters and grid

The notebook's configuration constants (`G`, `h`, `a`, `M`; `dr`, `dt`,
`N`, `n`) and the derived scalars `rho`, `om_sq`, `R`, `K`, `P`. -/

structure PhysicalParameters where
  G : ℝ
  h : ℝ
  a : ℝ
  M : ℝ

structure GridSpec where
  dr : ℝ
  dt : ℝ
  N : ℕ
  n : ℕ

/-- `rho = M/((4/3)*math.pi*a**3)`. -/
def rho (pp : PhysicalParameters) : ℝ := pp.M / ((4 / 3) * Real.pi * pp.a ^ 3)

/-- `om_sq = (4*math.pi*G*rho/3)`. -/
def omSq (pp : PhysicalParameters) : ℝ := 4 * Real.pi * pp.G * rho pp / 3

/-- `R = dt/dr**2`. -/
def Rc (gs : GridSpec) : ℝ := gs.dt / gs.dr ^ 2

/-- `K = h/(8*M)*1j`. -/
def Kc (pp : PhysicalParameters) : ℂ := ((pp.h / (8 * pp.M) : ℝ) : ℂ) * Complex.I

/-- `P = dt/(2*h)*1j`. -/
def Pc (pp : PhysicalParameters) (gs : GridSpec) : ℂ :=
  ((gs.dt / (2 * pp.h) : ℝ) : ℂ) * Complex.I

/-! ## Step 2: the potential evaluator -/

/-- `sum_1`: full pass `i = 0 .. N-1` of `i**2*dr**3*abs(psi[i])**2`. -/
def sum1 (dr : ℝ) (N : ℕ) (psi : List ℂ) : ℝ :=
  ∑ i ∈ Finset.range N, (i : ℝ) ^ 2 * dr ^ 3 * Complex.abs (psi.getD i 0) ^ 2

/-- `sum_2`: full pass `i = 0 .. N-1` of `i**4*dr**5*abs(psi[i])**2`. -/
def sum2 (dr : ℝ) (N : ℕ) (psi : List ℂ) : ℝ :=
  ∑ i ∈ Finset.range N, (i : ℝ) ^ 4 * dr ^ 5 * Complex.abs (psi.getD i 0) ^ 2

/-- The appended potential value
`2*math.pi*om_sq*((J*dr)**2)*sum_1-sum_2` (note: `sum_2` is outside the
`2*math.pi*om_sq` factor, exactly as in the source). -/
def potV (omsq dr : ℝ) (N : ℕ) (psi : List ℂ) (J : ℕ) : ℝ :=
  2 * Real.pi * omsq * ((J : ℝ) * dr) ^ 2 * sum1 dr N psi - sum2 dr N psi

/-- The potential vector `V_n_J` built by the `for J in range(0, N)` loop. -/
def potVec (omsq dr : ℝ) (N : ℕ) (psi : List ℂ) : List ℝ :=
  (List.range N).map (potV omsq dr N psi)

/-- The bracketed potential formula of the specification,
`2π·Ω²·((J·dr)²·S1 − S2)`, with the `2π·Ω²` factor multiplying the whole
difference; written for comparison with the source's `potV`. -/
def specPotV (omsq dr : ℝ) (N : ℕ) (psi : List ℂ) (J : ℕ) : ℝ :=
  2 * Real.pi * omsq * (((J : ℝ) * dr) ^ 2 * sum1 dr N psi - sum2 dr N psi)

/-! ## Step 3: the tridiagonal builder

The three coefficient lists, as the branchy `for J in range(0, N)` loop
builds them.  The diagonal reads the potential list at index `t` (the
timestep number), exactly as the source line
`b_J = 0.5*(1+P*V_n_J[t]+2*K*R)` does. -/

/-- Sub-diagonal entry `A_J[J]`. -/
def triA (K : ℂ) (R : ℝ) (N J : ℕ) : ℂ :=
  if J = 0 then 0
  else if J = N - 1 then -K * (R : ℂ) * (((((N : ℝ) - 2) / ((N : ℝ) - 1)) : ℝ) : ℂ)
  else -K * (R : ℂ) * (((((J : ℝ) - 1) / (J : ℝ)) : ℝ) : ℂ)

/-- Diagonal entry `B_J[J]`; `V` is the potential list, read at `t`. -/
def triB (P K : ℂ) (R : ℝ) (V : List ℝ) (t : ℕ) (N J : ℕ) : ℂ :=
  if J = 0 then 0.5 * (1 + P * ((V.getD t 0 : ℝ) : ℂ) + 12 * K * (R : ℂ))
  else if J = N - 1 then 0.5 * (1 + P * ((V.getD t 0 : ℝ) : ℂ))
  else 0.5 * (1 + P * ((V.getD t 0 : ℝ) : ℂ) + 2 * K * (R : ℂ))

/-- Super-diagonal entry `C_J[J]`. -/
def triC (K : ℂ) (R : ℝ) (N J : ℕ) : ℂ :=
  if J = 0 then -6 * K * (R : ℂ)
  else if J = N - 1 then 0
  else -K * (R : ℂ) * (((((J : ℝ) + 1) / (J : ℝ)) : ℝ) : ℂ)

/-! ## Steps 2-5: one timestep, and the time loop -/

/-- One iteration of the time loop: build the potential, check the
`V_n_J[t]` subscript (Python raises `IndexError` when `t` is out of
range), build the coefficients, run the Thomas solve on right-hand side
`psi`, and recover the next snapshot `X - psi` elementwise. -/
def step (pp : PhysicalParameters) (gs : GridSpec) (psi : List ℂ) (t : ℕ) :
    Except SNErr (List ℂ) :=
  let V := potVec (omSq pp) gs.dr gs.N psi
  if t < V.length then
    match thomasRun (fun i => triA (Kc pp) (Rc gs) gs.N i)
        (fun i => triB (Pc pp gs) (Kc pp) (Rc gs) V t gs.N i)
        (fun i => triC (Kc pp) (Rc gs) gs.N i)
        (fun i => psi.getD i 0) gs.N with
    | .error e => .error e
    | .ok X => .ok ((List.range gs.N).map (fun J => X.getD J 0 - psi.getD J 0))
  else .error (.oob t)

/-- State of the history list `psi_n_J` after `t` iterations of
`for t in range(0, n)`: iteration `t` reads snapshot `psi_n_J[t]`
(the most recent one) and appends the new snapshot. -/
def history (pp : PhysicalParameters) (gs : GridSpec) (psi0 : List ℂ) :
    ℕ → Except SNErr (List (List ℂ))
  | 0 => .ok [psi0]
  | t + 1 =>
    match history pp gs psi0 t with
    | .error e => .error e
    | .ok hs =>
      match step pp gs (hs.getD t []) t with
      | .error e => .error e
      | .ok psiNext => .ok (hs ++ [psiNext])

/-- The whole time loop: `n` iterations. -/
def run (pp : PhysicalParameters) (gs : GridSpec) (psi0 : List ℂ) :
    Except SNErr (List (List ℂ)) :=
  history pp gs psi0 gs.n

/-- The auxiliary vector `Υ` of timestep `t`: the Thomas solution of the
system the source builds from the potential of snapshot `psi`, with
right-hand side `psi` itself. -/
def upsilon (pp : PhysicalParameters) (gs : GridSpec) (psi : List ℂ) (t J : ℕ) : ℂ :=
  thomasX (fun i => triA (Kc pp) (Rc gs) gs.N i)
    (fun i => triB (Pc pp gs) (Kc pp) (Rc gs) (potVec (omSq pp) gs.dr gs.N psi) t gs.N i)
    (fun i => triC (Kc pp) (Rc gs) gs.N i)
    (fun i => psi.getD i 0) gs.N J

/-! ## The r_99 diagnostic

The scan over one snapshot: `for k in psi_n_J[l]` with running index `i`
and accumulator `s`; on the first `s > 0.99` the radius `i*dr` is
appended and the snapshot is done; if the loop exhausts the snapshot
without crossing the threshold, nothing is appended (the for-else branch
only advances `l`).  The iteration over the snapshot's elements is
rendered as an index recursion with fuel `psi.length`. -/

/-- One summand `4*math.pi*((i)*dr)**2*abs(k)**2*dr` of the r_99 sum. -/
def r99term (dr : ℝ) (psi : List ℂ) (i : ℕ) : ℝ :=
  4 * Real.pi * ((i : ℝ) * dr) ^ 2 * Complex.abs (psi.getD i 0) ^ 2 * dr

/-- The scan loop body: accumulate, test `s > 0.9900000000000`, emit
`i*dr` on the first crossing. -/
def r99go (dr : ℝ) (psi : List ℂ) : ℕ → ℕ → ℝ → Option ℝ
  | 0, _, _ => none
  | fuel + 1, i, s =>
    if 0.99 < s + r99term dr psi i then some ((i : ℝ) * dr)
    else r99go dr psi fuel (i + 1) (s + r99term dr psi i)

/-- The scan of one snapshot (index and accumulator start at `0`). -/
def r99scan (dr : ℝ) (psi : List ℂ) : Option ℝ :=
  r99go dr psi psi.length 0 0

/-- The whole `while l <= n` loop over the history: one scan per
snapshot, keeping only the radii of snapshots that crossed the
threshold. -/
def r99list (dr : ℝ) (hist : List (List ℂ)) : List ℝ :=
  hist.filterMap (r99scan dr)

/-- Cumulative sum `Σ_{i=0}^{J} 4π·(i·dr)²·|ψ_i|²·dr`. -/
def r99cum (dr : ℝ) (psi : List ℂ) (J : ℕ) : ℝ :=
  ∑ i ∈ Finset.range (J + 1), r99term dr psi i

/-! ## Step 1: the initial condition -/

/-- The Gaussian initial snapshot: entry `J` is
`(math.pi*a**2)**(-3/4)*math.exp(-(J*dr)**2/(2*a**2))` (a real float in
the source). -/
def initPsi (a dr : ℝ) (N : ℕ) : List ℝ :=
  (List.range N).map (fun (J : ℕ) =>
    (Real.pi * a ^ 2) ^ ((-3 : ℝ) / 4) * Real.exp (-((J : ℝ) * dr) ^ 2 / (2 * a ^ 2)))

/-- The initial snapshot as the complex list the time loop consumes. -/
def initPsiC (a dr : ℝ) (N : ℕ) : List ℂ :=
  (initPsi a dr N).map (fun x => (x : ℂ))

/-! ## The built coefficients satisfy the invariant hypotheses -/

/-- Real part of `0.5*(1 + θ*i)` for real `θ`. -/
theorem half_one_add_mul_I_re (θ : ℝ) :
    ((0.5 : ℂ) * (1 + (θ : ℂ) * Complex.I)).re = 1 / 2 := by
  have h05 : (0.5 : ℂ) = ((0.5 : ℝ) : ℂ) := by norm_num
  rw [h05]
  simp [Complex.mul_re, Complex.mul_im, Complex.add_re, Complex.add_im,
    Complex.I_re, Complex.I_im]
  norm_num

/-- Every diagonal entry the source builds has real part `1/2`: both `P`
and `K` are real multiples of the imaginary unit and the potential value
is real. -/
theorem triB_re (p k R : ℝ) (V : List ℝ) (t N J : ℕ) :
    (triB ((p : ℂ) * Complex.I) ((k : ℂ) * Complex.I) R V t N J).re = 1 / 2 := by
  unfold triB
  split_ifs
  · have h : (0.5 : ℂ) * (1 + (p : ℂ) * Complex.I * ((V.getD t 0 : ℝ) : ℂ)
        + 12 * ((k : ℂ) * Complex.I) * (R : ℂ))
        = (0.5 : ℂ) * (1 + ((p * V.getD t 0 + 12 * k * R : ℝ) : ℂ) * Complex.I) := by
      push_cast
      ring
    rw [h, half_one_add_mul_I_re]
  · have h : (0.5 : ℂ) * (1 + (p : ℂ) * Complex.I * ((V.getD t 0 : ℝ) : ℂ))
        = (0.5 : ℂ) * (1 + ((p * V.getD t 0 : ℝ) : ℂ) * Complex.I) := by
      push_cast
      ring
    rw [h, half_one_add_mul_I_re]
  · have h : (0.5 : ℂ) * (1 + (p : ℂ) * Complex.I * ((V.getD t 0 : ℝ) : ℂ)
        + 2 * ((k : ℂ) * Complex.I) * (R : ℂ))
        = (0.5 : ℂ) * (1 + ((p * V.getD t 0 + 2 * k * R : ℝ) : ℂ) * Complex.I) := by
      push_cast
      ring
    rw [h, half_one_add_mul_I_re]

/-- Product of two negative imaginary-axis values is a nonpositive real:
`(-(u·i))·(-(v·i)) = -(u·v)`. -/
theorem neg_I_mul_neg_I (u v : ℝ) :
    (-((u : ℂ) * Complex.I)) * (-((v : ℂ) * Complex.I)) = -(((u * v : ℝ)) : ℂ) := by
  have h : ((u : ℂ) * Complex.I) * ((v : ℂ) * Complex.I)
      = ((u : ℂ) * (v : ℂ)) * (Complex.I * Complex.I) := by ring
  rw [neg_mul_neg, h, Complex.I_mul_I]
  push_cast
  ring

/-- Every sub-diagonal entry at `i ≥ 1` is `-(k·R·x)·i` for some `x ≥ 0`
(requires `N ≥ 2` so the outer-boundary weight `(N-2)/(N-1)` is
nonnegative). -/
theorem triA_form (k R : ℝ) (N i : ℕ) (hN : 2 ≤ N) (hi : 1 ≤ i) :
    ∃ x : ℝ, 0 ≤ x ∧
      triA ((k : ℂ) * Complex.I) R N i = -(((k * R * x : ℝ) : ℂ) * Complex.I) := by
  unfold triA
  rw [if_neg (by omega : ¬ i = 0)]
  have hN2 : (2 : ℝ) ≤ (N : ℝ) := by exact_mod_cast hN
  by_cases h : i = N - 1
  · rw [if_pos h]
    refine ⟨((N : ℝ) - 2) / ((N : ℝ) - 1),
      div_nonneg (by linarith) (by linarith), ?_⟩
    push_cast
    ring
  · rw [if_neg h]
    have hi1 : (1 : ℝ) ≤ (i : ℝ) := by exact_mod_cast hi
    refine ⟨((i : ℝ) - 1) / (i : ℝ), div_nonneg (by linarith) (by linarith), ?_⟩
    push_cast
    ring

/-- Every super-diagonal entry is `-(k·R·y)·i` for some `y ≥ 0`. -/
theorem triC_form (k R : ℝ) (N m : ℕ) :
    ∃ y : ℝ, 0 ≤ y ∧
      triC ((k : ℂ) * Complex.I) R N m = -(((k * R * y : ℝ) : ℂ) * Complex.I) := by
  unfold triC
  split_ifs with h1 h2
  · exact ⟨6, by norm_num, by push_cast; ring⟩
  · exact ⟨0, le_refl 0, by push_cast; ring⟩
  · refine ⟨((m : ℝ) + 1) / (m : ℝ),
      div_nonneg (by positivity) (Nat.cast_nonneg m), ?_⟩
    push_cast
    ring

/-- The product hypothesis of the forward-sweep invariant, for the built
coefficients. -/
theorem tri_hac (k R : ℝ) (N : ℕ) (hN : 2 ≤ N) :
    ∀ i, 1 ≤ i →
      ∃ w : ℝ, 0 ≤ w ∧
        (triA ((k : ℂ) * Complex.I) R N i) * (triC ((k : ℂ) * Complex.I) R N (i - 1))
          = -((w : ℝ) : ℂ) := by
  intro i hi
  obtain ⟨x, hx, hA⟩ := triA_form k R N i hN hi
  obtain ⟨y, hy, hC⟩ := triC_form k R N (i - 1)
  refine ⟨(k * R * x) * (k * R * y), ?_, ?_⟩
  · have h : (k * R * x) * (k * R * y) = (k * R) ^ 2 * (x * y) := by ring
    rw [h]
    exact mul_nonneg (sq_nonneg _) (mul_nonneg hx hy)
  · rw [hA, hC, neg_I_mul_neg_I]

/-- No modified diagonal of the forward sweep over the built system is
ever zero (for any real potential list, any snapshot, any parameters):
the numerical-instability fault cannot fire inside the time loop. -/
theorem builder_thomasB_ne (pp : PhysicalParameters) (gs : GridSpec) (V : List ℝ)
    (t : ℕ) (hN : 2 ≤ gs.N) :
    ∀ i, thomasB (fun i => triA (Kc pp) (Rc gs) gs.N i)
      (fun i => triB (Pc pp gs) (Kc pp) (Rc gs) V t gs.N i)
      (fun i => triC (Kc pp) (Rc gs) gs.N i) i ≠ 0 :=
  thomasB_ne_zero _ _ _
    (fun i => triB_re (gs.dt / (2 * pp.h)) (pp.h / (8 * pp.M)) (Rc gs) V t gs.N i)
    (fun i hi => tri_hac (pp.h / (8 * pp.M)) (Rc gs) gs.N hN i hi)

/-! ## getD over appends -/

theorem getD_append_left {α : Type} (l ls : List α) (d : α) (i : ℕ) (h : i < l.length) :
    (l ++ ls).getD i d = l.getD i d := by
  rw [List.getD_eq_getElem?_getD, List.getD_eq_getElem?_getD, List.getElem?_append,
    if_pos h]

theorem getD_concat_self {α : Type} (l : List α) (x : α) (d : α) :
    (l ++ [x]).getD l.length d = x := by
  rw [List.getD_eq_getElem?_getD, List.getElem?_append_right (le_refl _)]
  simp

/-! ## One successful timestep, and the whole loop -/

/-- Inside the time loop the Thomas solve always succeeds (the built
system satisfies the invariant), so a step with an in-range `V_n_J[t]`
subscript returns exactly `Υ - ψ` elementwise. -/
theorem step_ok (pp : PhysicalParameters) (gs : GridSpec) (psi : List ℂ) (t : ℕ)
    (hN : 2 ≤ gs.N) (ht : t < gs.N) :
    step pp gs psi t
      = .ok ((List.range gs.N).map (fun J => upsilon pp gs psi t J - psi.getD J 0)) := by
  unfold step
  dsimp only
  rw [if_pos (by simpa [potVec] using ht)]
  rw [thomasRun_ok _ _ _ _ _
    (fun j _ => builder_thomasB_ne pp gs (potVec (omSq pp) gs.dr gs.N psi) t hN j)]
  dsimp only
  congr 1
  apply List.map_congr_left
  intro J hJ
  rw [getD_map_range _ _ (List.mem_range.mp hJ)]
  rfl

/-- While the `V_n_J[t]` subscript stays in range, the history list
after `k` iterations holds `k+1` snapshots, starts with the initial one,
and each appended snapshot is `Υ - ψ` elementwise. -/
theorem history_ok (pp : PhysicalParameters) (gs : GridSpec) (psi0 : List ℂ)
    (hN : 2 ≤ gs.N) :
    ∀ k, k ≤ gs.N → ∃ hs, history pp gs psi0 k = .ok hs ∧ hs.length = k + 1 ∧
      hs.getD 0 [] = psi0 ∧
      ∀ t, t < k → ∀ J, J < gs.N →
        (hs.getD (t + 1) []).getD J 0
          = upsilon pp gs (hs.getD t []) t J - (hs.getD t []).getD J 0 := by
  intro k
  induction k with
  | zero =>
    intro _
    exact ⟨[psi0], rfl, rfl, rfl, fun t ht => absurd ht (Nat.not_lt_zero t)⟩
  | succ k ih =>
    intro hk
    obtain ⟨hs, hrun, hlen, h0, hrel⟩ := ih (Nat.le_of_succ_le hk)
    have hstep := step_ok pp gs (hs.getD k []) k hN (by omega)
    refine ⟨hs ++ [(List.range gs.N).map
        (fun J => upsilon pp gs (hs.getD k []) k J - (hs.getD k []).getD J 0)],
      ?_, ?_, ?_, ?_⟩
    · rw [history, hrun]
      dsimp only
      rw [hstep]
    · simp [hlen]
    · rw [getD_append_left _ _ _ _ (by omega)]
      exact h0
    · intro t ht J hJ
      rcases Nat.lt_or_ge t k with hlt | hge
      · rw [getD_append_left _ _ _ _ (by omega), getD_append_left _ _ _ _ (by omega)]
        exact hrel t hlt J hJ
      · have htk : t = k := by omega
        subst htk
        have hsel : (hs ++ [(List.range gs.N).map
            (fun J => upsilon pp gs (hs.getD t []) t J - (hs.getD t []).getD J 0)]).getD
              (t + 1) []
            = (List.range gs.N).map
              (fun J => upsilon pp gs (hs.getD t []) t J - (hs.getD t []).getD J 0) := by
          have hl : t + 1 = hs.length := by omega
          rw [hl, getD_concat_self]
        rw [hsel, getD_append_left _ _ _ _ (by omega)]
        rw [getD_map_range _ _ hJ]

/-- A fault of the time loop persists through later iterations. -/
theorem history_error_mono (pp : PhysicalParameters) (gs : GridSpec) (psi0 : List ℂ)
    (k : ℕ) (e : SNErr) (h : history pp gs psi0 k = .error e) :
    ∀ m, k ≤ m → history pp gs psi0 m = .error e := by
  intro m hm
  induction m with
  | zero => exact (Nat.le_zero.mp hm) ▸ h
  | succ m ih =>
    rcases Nat.lt_or_ge k (m + 1) with hlt | hge
    · rw [history, ih (Nat.lt_succ_iff.mp hlt)]
    · exact (Nat.le_antisymm hm hge) ▸ h

/-- Iteration `t = N` reads `V_n_J[N]` out of range: the loop faults
there, whatever the wavefunction values are. -/
theorem history_oob (pp : PhysicalParameters) (gs : GridSpec) (psi0 : List ℂ)
    (hN : 2 ≤ gs.N) :
    ∀ m, gs.N < m → history pp gs psi0 m = .error (.oob gs.N) := by
  have hbase : history pp gs psi0 (gs.N + 1) = .error (.oob gs.N) := by
    obtain ⟨hs, hrun, -, -, -⟩ := history_ok pp gs psi0 hN gs.N le_rfl
    rw [history, hrun]
    dsimp only
    have hstep : step pp gs (hs.getD gs.N []) gs.N = .error (.oob gs.N) := by
      unfold step
      dsimp only
      rw [if_neg (by simp [potVec])]
    rw [hstep]
  intro m hm
  exact history_error_mono pp gs psi0 (gs.N + 1) _ hbase m hm

/-! ## Characterising the r_99 scan -/

/-- If `J` is the first index whose cumulative sum crosses the
threshold, the scan (started at `i` with the matching partial sum)
returns `J*dr`. -/
theorem r99go_found (dr : ℝ) (psi : List ℂ) :
    ∀ fuel i J, i ≤ J → J < i + fuel →
      0.99 < r99cum dr psi J → (∀ j, j < J → r99cum dr psi j ≤ 0.99) →
      r99go dr psi fuel i (∑ t ∈ Finset.range i, r99term dr psi t)
        = some ((J : ℝ) * dr) := by
  intro fuel
  induction fuel with
  | zero => intro i J h1 h2 _ _; omega
  | succ fuel ih =>
    intro i J h1 h2 hcross hmin
    rw [r99go]
    have hsum : (∑ t ∈ Finset.range i, r99term dr psi t) + r99term dr psi i
        = ∑ t ∈ Finset.range (i + 1), r99term dr psi t :=
      (Finset.sum_range_succ _ _).symm
    rcases eq_or_lt_of_le h1 with heq | hlt
    · subst heq
      rw [if_pos (by rw [hsum]; exact hcross)]
    · rw [if_neg (by rw [hsum]; exact not_lt.mpr (hmin i hlt))]
      rw [hsum]
      exact ih (i + 1) J hlt (by omega) hcross hmin

/-- If no index in reach crosses the threshold, the scan returns
nothing. -/
theorem r99go_none (dr : ℝ) (psi : List ℂ) :
    ∀ fuel i, (∀ j, i ≤ j → j < i + fuel → r99cum dr psi j ≤ 0.99) →
      r99go dr psi fuel i (∑ t ∈ Finset.range i, r99term dr psi t) = none := by
  intro fuel
  induction fuel with
  | zero => intro i _; rw [r99go]
  | succ fuel ih =>
    intro i h
    rw [r99go]
    have hsum : (∑ t ∈ Finset.range i, r99term dr psi t) + r99term dr psi i
        = ∑ t ∈ Finset.range (i + 1), r99term dr psi t :=
      (Finset.sum_range_succ _ _).symm
    rw [if_neg (by rw [hsum]; exact not_lt.mpr (h i le_rfl (by omega)))]
    rw [hsum]
    exact ih (i + 1) (fun j hj1 hj2 => h j (by omega) (by omega))

/-! ## The initial condition -/

/-- Entry `J` of the generated Gaussian snapshot. -/
theorem initPsi_entry (a dr : ℝ) (N J : ℕ) (hJ : J < N) :
    (initPsi a dr N).getD J 0
      = (Real.pi * a ^ 2) ^ ((-3 : ℝ) / 4)
          * Real.exp (-((J : ℝ) * dr) ^ 2 / (2 * a ^ 2)) := by
  unfold initPsi
  exact getD_map_range _ _ hJ

/-- `getD` through the real-to-complex coercion of a list. -/
theorem getD_map_ofReal (l : List ℝ) (J : ℕ) :
    ((l.map (fun x => (x : ℂ))).getD J 0) = ((l.getD J 0 : ℝ) : ℂ) := by
  induction l generalizing J with
  | nil => simp
  | cons x xs ih =>
    cases J with
    | zero => simp
    | succ J => simpa using ih J

/-! ## Claim theorems -/

/-- C4: for every `N ≥ 1` and coefficient sequences with `a 0 = 0` and
`c (N-1) = 0`, whenever every modified diagonal of the forward sweep is
nonzero, the list `X` returned by the Thomas solve satisfies every
original tridiagonal equation
`a_i X_{i-1} + b_i X_i + c_i X_{i+1} = d_i` (boundary terms dropped), in
exact arithmetic. -/
theorem claim_thomas_correct (a b c d : ℕ → ℂ) (N : ℕ) (hN : 1 ≤ N)
    (ha0 : a 0 = 0) (hcN : c (N - 1) = 0)
    (hB : ∀ j, j < N → thomasB a b c j ≠ 0) :
    ∃ X : List ℂ, thomasRun a b c d N = .ok X ∧ X.length = N ∧
      ∀ i, i < N →
        a i * X.getD (i - 1) 0 + b i * X.getD i 0 + c i * X.getD (i + 1) 0 = d i := by
  refine ⟨(List.range N).map (thomasX a b c d N), thomasRun_ok a b c d N hB,
    by simp, ?_⟩
  intro i hi
  have hXi := getD_map_range (thomasX a b c d N) (0 : ℂ) hi
  have hXm := getD_map_range (thomasX a b c d N) (0 : ℂ)
    (lt_of_le_of_lt (Nat.sub_le i 1) hi)
  have heq := thomas_eqs a b c d N ha0 hcN hB i hi
  by_cases hi1 : i + 1 < N
  · rw [hXm, hXi, getD_map_range _ _ hi1]
    exact heq
  · have hlast : i = N - 1 := by omega
    have hc0 : c i = 0 := by rw [hlast]; exact hcN
    have hout : ((List.range N).map (thomasX a b c d N)).getD (i + 1) 0 = 0 := by
      rw [List.getD_eq_getElem?_getD]
      rw [List.getElem?_eq_none (by simp; omega)]
      rfl
    rw [hXm, hXi, hout, hc0]
    rw [hc0] at heq
    simpa using heq

theorem claim_thomas_correct_witness :
    ∃ X : List ℂ,
      thomasRun (fun _ => 0) (fun _ => 1) (fun _ => 0) (fun _ => 1) 1 = .ok X ∧
      X.length = 1 ∧
      ∀ i, i < 1 →
        (fun _ => (0 : ℂ)) i * X.getD (i - 1) 0 + (fun _ => (1 : ℂ)) i * X.getD i 0
          + (fun _ => (0 : ℂ)) i * X.getD (i + 1) 0 = (fun _ => (1 : ℂ)) i :=
  claim_thomas_correct (fun _ => 0) (fun _ => 1) (fun _ => 0) (fun _ => 1) 1
    le_rfl rfl rfl
    (fun j hj => by
      have hj0 : j = 0 := by omega
      subst hj0
      rw [thomasB]
      exact one_ne_zero)

/-- C1: the source's diagonal entry at grid index `J` reads the
potential at list index `t` (the timestep number), not at grid index
`J`.  At `V = [0, 1]`, `t = 0`, `N = 2`, `J = 1` the built diagonal is
`0.5*(1 + P*V_0) = 0.5`, not the spec's `0.5*(1 + P*V_1)`
(with `P = K = i`, `R = 1`). -/
theorem claim_builder_diag_mismatch :
    triB Complex.I Complex.I 1 [(0 : ℝ), 1] 0 2 1 = 0.5 ∧
      triB Complex.I Complex.I 1 [(0 : ℝ), 1] 0 2 1
        ≠ 0.5 * (1 + Complex.I * ((1 : ℝ) : ℂ)) := by
  have hval : triB Complex.I Complex.I 1 [(0 : ℝ), 1] 0 2 1 = 0.5 := by
    unfold triB
    norm_num
  refine ⟨hval, ?_⟩
  rw [hval]
  intro h
  have h2 : (0.5 : ℂ) * Complex.I = 0 := by
    push_cast at h
    linear_combination -h
  have h3 : Complex.I = 0 := by
    rcases mul_eq_zero.mp h2 with h4 | h4
    · exact absurd h4 (by norm_num)
    · exact h4
  exact Complex.I_ne_zero h3

/-- C2 (counterexample): the code's potential value differs from the
spec's bracketed formula at `Ω² = 1`, `dr = 1`, `N = 2`, `ψ = [0, 1]`,
`J = 1`: the code gives `2π - 1`, the bracketed form gives `0`. -/
theorem claim_potential_mismatch :
    potV 1 1 2 [(0 : ℂ), 1] 1 ≠ specPotV 1 1 2 [(0 : ℂ), 1] 1 := by
  have hg0 : ([(0 : ℂ), 1]).getD 0 0 = 0 := rfl
  have hg1 : ([(0 : ℂ), 1]).getD 1 0 = 1 := rfl
  have hs1 : sum1 1 2 [(0 : ℂ), 1] = 1 := by
    unfold sum1
    rw [Finset.sum_range_succ, Finset.sum_range_one, hg0, hg1]
    norm_num
  have hs2 : sum2 1 2 [(0 : ℂ), 1] = 1 := by
    unfold sum2
    rw [Finset.sum_range_succ, Finset.sum_range_one, hg0, hg1]
    norm_num
  unfold potV specPotV
  rw [hs1, hs2]
  have hpi := Real.pi_gt_three
  intro h
  push_cast at h
  nlinarith [h]

/-- C2 (amended): every potential entry equals
`2π·Ω²·(J·dr)²·S1 − S2`, with `S2` outside the `2π·Ω²` factor. -/
theorem claim_potential_formula (omsq dr : ℝ) (N : ℕ) (psi : List ℂ) (J : ℕ)
    (hJ : J < N) :
    (potVec omsq dr N psi).getD J 0
      = 2 * Real.pi * omsq * ((J : ℝ) * dr) ^ 2 *
          (∑ i ∈ Finset.range N, (i : ℝ) ^ 2 * dr ^ 3 * Complex.abs (psi.getD i 0) ^ 2)
        - ∑ i ∈ Finset.range N, (i : ℝ) ^ 4 * dr ^ 5 * Complex.abs (psi.getD i 0) ^ 2 := by
  unfold potVec
  rw [getD_map_range _ _ hJ]
  rfl

theorem claim_potential_formula_witness :
    (potVec 1 1 1 []).getD 0 0
      = 2 * Real.pi * 1 * (((0 : ℕ) : ℝ) * 1) ^ 2 *
          (∑ i ∈ Finset.range 1,
            (i : ℝ) ^ 2 * (1 : ℝ) ^ 3 * Complex.abs (([] : List ℂ).getD i 0) ^ 2)
        - ∑ i ∈ Finset.range 1,
            (i : ℝ) ^ 4 * (1 : ℝ) ^ 5 * Complex.abs (([] : List ℂ).getD i 0) ^ 2 :=
  claim_potential_formula 1 1 1 [] 0 Nat.one_pos

/-- C3 (amended, adding the hypothesis `n ≤ N` forced by the
counterexample below): for a valid configuration with `n ≤ N` and an
initial snapshot of length `N`, the time loop succeeds with `n+1`
snapshots, starting from the initial one; at every timestep the Thomas
solve of the built system returns exactly the `Υ` sequence, and the
appended snapshot is `Υ_J - ψ_J` elementwise. -/
theorem claim_timestepper_history (pp : PhysicalParameters) (gs : GridSpec)
    (psi0 : List ℂ) (hN : 2 ≤ gs.N) (hdr : 0 < gs.dr) (hdt : 0 < gs.dt)
    (hlen : psi0.length = gs.N) (hn : gs.n ≤ gs.N) :
    ∃ hs, run pp gs psi0 = .ok hs ∧ hs.length = gs.n + 1 ∧ hs.getD 0 [] = psi0 ∧
      (∀ t, t < gs.n →
        thomasRun (fun i => triA (Kc pp) (Rc gs) gs.N i)
          (fun i => triB (Pc pp gs) (Kc pp) (Rc gs)
            (potVec (omSq pp) gs.dr gs.N (hs.getD t [])) t gs.N i)
          (fun i => triC (Kc pp) (Rc gs) gs.N i)
          (fun i => (hs.getD t []).getD i 0) gs.N
          = .ok ((List.range gs.N).map (upsilon pp gs (hs.getD t []) t))) ∧
      ∀ t, t < gs.n → ∀ J, J < gs.N →
        (hs.getD (t + 1) []).getD J 0
          = upsilon pp gs (hs.getD t []) t J - (hs.getD t []).getD J 0 := by
  obtain ⟨hs, h1, h2, h3, h4⟩ := history_ok pp gs psi0 hN gs.n hn
  refine ⟨hs, h1, h2, h3, ?_, h4⟩
  intro t _
  rw [thomasRun_ok _ _ _ _ _ (fun j _ => builder_thomasB_ne pp gs _ t hN j)]
  rfl

theorem claim_timestepper_history_witness :
    ∃ hs, run ⟨1, 1, 1, 1⟩ ⟨1, 1, 2, 0⟩ [(0 : ℂ), 0] = .ok hs ∧ hs.length = 1 := by
  obtain ⟨hs, h1, h2, -, -, -⟩ := claim_timestepper_history ⟨1, 1, 1, 1⟩ ⟨1, 1, 2, 0⟩
    [(0 : ℂ), 0] (by norm_num) (by norm_num) (by norm_num) rfl (by norm_num)
  exact ⟨hs, h1, h2⟩

/-- C3 (counterexample): with `N = 2` but `n = 3` the run does not
produce a history at all — it faults with the out-of-range `V_n_J[t]`
read at `t = 2`. -/
theorem claim_timestepper_counterexample :
    run ⟨1, 1, 1, 1⟩ ⟨1, 1, 2, 3⟩ [(1 : ℂ), 0] = .error (.oob 2) :=
  history_oob ⟨1, 1, 1, 1⟩ ⟨1, 1, 2, 3⟩ [(1 : ℂ), 0] (by norm_num) 3 (by norm_num)

/-- C9: each timestep `t` reads the potential list at index `t`, so a
run with `n ≤ N` never goes out of range (and, by the diagonal
invariant, never faults at all), while a run with `n > N` aborts with
the index-out-of-range fault at timestep `t = N`, for every initial
snapshot whatsoever. -/
theorem claim_step_loop_bounds (pp : PhysicalParameters) (gs : GridSpec)
    (psi0 : List ℂ) (hN : 2 ≤ gs.N) :
    (gs.n ≤ gs.N → ∃ hs, run pp gs psi0 = .ok hs ∧ hs.length = gs.n + 1)
    ∧ (gs.N < gs.n → run pp gs psi0 = .error (.oob gs.N)) := by
  constructor
  · intro hn
    obtain ⟨hs, h1, h2, -, -⟩ := history_ok pp gs psi0 hN gs.n hn
    exact ⟨hs, h1, h2⟩
  · intro hn
    exact history_oob pp gs psi0 hN gs.n hn

theorem claim_step_loop_bounds_witness :
    run ⟨1, 1, 1, 1⟩ ⟨1, 1, 2, 3⟩ [] = .error (.oob 2) :=
  (claim_step_loop_bounds ⟨1, 1, 1, 1⟩ ⟨1, 1, 2, 3⟩ [] (by norm_num)).2 (by norm_num)

/-- C7: the whole run is a pure function of the physical parameters,
the grid, and the initial snapshot: equal inputs give equal (hence
bit-identical) histories. -/
theorem claim_run_deterministic (pp1 pp2 : PhysicalParameters) (gs1 gs2 : GridSpec)
    (psi1 psi2 : List ℂ) (hpp : pp1 = pp2) (hgs : gs1 = gs2) (hpsi : psi1 = psi2) :
    run pp1 gs1 psi1 = run pp2 gs2 psi2 := by
  rw [hpp, hgs, hpsi]

theorem claim_run_deterministic_witness :
    run ⟨1, 1, 1, 1⟩ ⟨1, 1, 2, 1⟩ [(1 : ℂ), 0] = run ⟨1, 1, 1, 1⟩ ⟨1, 1, 2, 1⟩ [(1 : ℂ), 0] :=
  claim_run_deterministic _ _ _ _ _ _ rfl rfl rfl

/-- C6 (counterexample): on a snapshot whose cumulative probability
never crosses `0.99` the scan appends nothing, so the r_99 series does
not hold one entry per snapshot (here: zero entries for one snapshot,
and no paired fraction is produced anywhere). -/
theorem claim_r99_counterexample :
    (r99list 1 [[(0 : ℂ), 0]]).length ≠ ([[(0 : ℂ), 0]] : List (List ℂ)).length := by
  have hg : ∀ i, ([(0 : ℂ), 0]).getD i 0 = 0 := by
    intro i
    match i with
    | 0 => rfl
    | 1 => rfl
    | n + 2 => rfl
  have hscan : r99scan 1 [(0 : ℂ), 0] = none := by
    unfold r99scan
    have h0 : (0 : ℝ) = ∑ t ∈ Finset.range 0, r99term 1 [(0 : ℂ), 0] t := by simp
    rw [h0]
    apply r99go_none
    intro j _ _
    have hcum : r99cum 1 [(0 : ℂ), 0] j = 0 := by
      unfold r99cum
      apply Finset.sum_eq_zero
      intro x _
      unfold r99term
      rw [hg x]
      simp
    rw [hcum]
    norm_num
  simp [r99list, hscan]

/-- C6 (amended): on each snapshot the scan returns `J*·dr` for the
smallest index `J*` whose cumulative sum
`Σ_{i≤J*} 4π·(i·dr)²·|ψ_i|²·dr` exceeds `0.99`, and returns nothing
(appending no entry for that snapshot) when no index crosses the
threshold; no enclosed fraction is returned in either case. -/
theorem claim_r99_scan (dr : ℝ) (psi : List ℂ) :
    (∀ J, J < psi.length → 0.99 < r99cum dr psi J →
      (∀ j, j < J → r99cum dr psi j ≤ 0.99) →
      r99scan dr psi = some ((J : ℝ) * dr))
    ∧ ((∀ J, J < psi.length → r99cum dr psi J ≤ 0.99) → r99scan dr psi = none) := by
  constructor
  · intro J hJ hcross hmin
    unfold r99scan
    have h0 : (0 : ℝ) = ∑ t ∈ Finset.range 0, r99term dr psi t := by simp
    rw [h0]
    exact r99go_found dr psi psi.length 0 J (Nat.zero_le J) (by omega) hcross hmin
  · intro hall
    unfold r99scan
    have h0 : (0 : ℝ) = ∑ t ∈ Finset.range 0, r99term dr psi t := by simp
    rw [h0]
    exact r99go_none dr psi psi.length 0 (fun j _ hj2 => hall j (by omega))

theorem claim_r99_scan_witness :
    r99scan 1 [(0 : ℂ), 2] = some (((1 : ℕ) : ℝ) * 1) := by
  apply (claim_r99_scan 1 [(0 : ℂ), 2]).1 1 (by norm_num)
  · have hg0 : ([(0 : ℂ), 2]).getD 0 0 = 0 := rfl
    have hg1 : ([(0 : ℂ), 2]).getD 1 0 = 2 := rfl
    unfold r99cum r99term
    rw [Finset.sum_range_succ, Finset.sum_range_one, hg0, hg1]
    have habs : Complex.abs 2 = 2 := by
      simpa using Complex.abs_ofNat 2
    rw [habs]
    have hpi := Real.pi_gt_three
    push_cast
    nlinarith
  · intro j hj
    have hj0 : j = 0 := by omega
    subst hj0
    have hg0 : ([(0 : ℂ), 2]).getD 0 0 = 0 := rfl
    unfold r99cum r99term
    rw [Finset.sum_range_one, hg0]
    norm_num

/-- C10: every amplitude of the generated Gaussian initial snapshot is
a real, non-negative number (the complex snapshot has zero imaginary
part), and the amplitudes are monotonically non-increasing in the grid
index. -/
theorem claim_gaussian_props (a dr : ℝ) (N : ℕ) (ha : 0 < a) :
    (∀ J, J < N →
      0 ≤ (initPsi a dr N).getD J 0 ∧ ((initPsiC a dr N).getD J 0).im = 0)
    ∧ ∀ J, J + 1 < N → (initPsi a dr N).getD (J + 1) 0 ≤ (initPsi a dr N).getD J 0 := by
  have hpre : 0 ≤ (Real.pi * a ^ 2) ^ ((-3 : ℝ) / 4) :=
    Real.rpow_nonneg (by positivity) _
  constructor
  · intro J hJ
    constructor
    · rw [initPsi_entry a dr N J hJ]
      exact mul_nonneg hpre (Real.exp_pos _).le
    · unfold initPsiC
      rw [getD_map_ofReal]
      exact Complex.ofReal_im _
  · intro J hJ
    rw [initPsi_entry a dr N (J + 1) hJ, initPsi_entry a dr N J (by omega)]
    apply mul_le_mul_of_nonneg_left _ hpre
    apply Real.exp_le_exp.mpr
    have h2a : (0 : ℝ) < 2 * a ^ 2 := by positivity
    apply div_le_div_of_nonneg_right ?_ h2a.le
    push_cast
    nlinarith [sq_nonneg dr, (Nat.cast_nonneg J : (0 : ℝ) ≤ (J : ℝ))]

theorem claim_gaussian_props_witness :
    0 ≤ (initPsi 1 1 2).getD 1 0 ∧ (initPsi 1 1 2).getD 1 0 ≤ (initPsi 1 1 2).getD 0 0 := by
  have h := claim_gaussian_props 1 1 2 (by norm_num)
  exact ⟨(h.1 1 (by norm_num)).1, h.2 0 (by norm_num)⟩
